import Mathlib

set_option maxRecDepth 4000

/-
Verification of the workersai Genkit plugin's conversation adapter.

The repository contains two near-duplicate variants of the adapter:
  * the tool-calling variant (toClientMessages, toGenkitToolRequestParts,
    simplifyArguments, convertRole with a tool case), embedded in the
    root namespace `Workersai` below;
  * the plain HTTP variant (supportsChatFormat, buildPrompt,
    concatenateTextParts, handleResponse, convertRole without a tool
    case), embedded in namespace `Workersai.HTTPVariant`.

Go's `map[string]any` JSON values are embedded as an inductive `Json`
type with association lists for objects; `any` values that may fail to
marshal (channels, functions, ...) are embedded as `GoValue`; Go strings
that carry JSON text are embedded as `JStr`, either the parse result or
a malformed string, so that `encoding/json` marshal/unmarshal become
total Lean functions.
-/

namespace Workersai

/-- JSON values as decoded by Go encoding/json into `any`
(objects become `map[string]any`, modelled as association lists with
distinct keys; numbers are collapsed to integers, which is enough for
the adapter since it never inspects numeric values). -/
inductive Json where
  | null
  | bool (b : Bool)
  | num (n : Int)
  | str (s : String)
  | arr (elems : List Json)
  | obj (fields : List (String × Json))

/-- Lookup of a key in a decoded JSON object (Go map indexing). -/
def lookupKey (k : String) : List (String × Json) → Option Json
  | [] => none
  | kv :: rest => if kv.1 = k then some kv.2 else lookupKey k rest

/-- Model of a Go `any` value handed to json.Marshal: either a
serializable value (its JSON image) or a non-serializable value such as
a channel or function, on which json.Marshal returns an error. -/
inductive GoValue where
  | json (j : Json)
  | nonserializable (tag : String)

/-- Model of Go json.Marshal on an `any` value: the JSON image when the
value is serializable, `none` (a marshal error) otherwise. -/
def GoValue.marshal : GoValue → Option Json
  | .json j => some j
  | .nonserializable _ => none

/-- Model of a Go string that is expected to hold JSON text: either a
string that parses to a JSON value, or a malformed string. -/
inductive JStr where
  | ofJson (j : Json)
  | malformed (s : String)

/-- Whether the string is valid JSON text. -/
def JStr.valid : JStr → Bool
  | .ofJson _ => true
  | .malformed _ => false

/-- Model of Go `json.Unmarshal(b, &m)` with `m : map[string]any`:
succeeds on a JSON object (yielding its fields) and on JSON `null`
(leaving the map nil, i.e. empty); fails on malformed text and on any
other top-level JSON value (number, string, array, bool). -/
def JStr.unmarshalObj : JStr → Option (List (String × Json))
  | .ofJson (.obj fields) => some fields
  | .ofJson .null => some []
  | _ => none

/-- Canonical role constants of the host layer (genkit ai.Role is a
string type; these are the values the adapter switches on). -/
abbrev RoleUser : String := "user"

/-- Canonical model role. -/
abbrev RoleModel : String := "model"

/-- Canonical system role. -/
abbrev RoleSystem : String := "system"

/-- Canonical tool role. -/
abbrev RoleTool : String := "tool"

/-- Canonical tool request (ai.ToolRequest): ref is the correlation id,
input the argument map (an `any` value in Go). -/
structure ToolRequest where
  ref : String
  name : String
  input : GoValue

/-- Canonical tool response (ai.ToolResponse): ref correlates with the
request, output is the tool's result (an `any` value in Go). -/
structure ToolResponse where
  ref : String
  name : String
  output : GoValue

/-- Canonical message part (ai.Part), a tagged variant: text,
tool request, tool response, or media (any part kind that is neither
text nor tool related; its payload never reaches the wire encoders). -/
inductive Part where
  | text (t : String)
  | toolRequest (req : ToolRequest)
  | toolResponse (resp : ToolResponse)
  | media (contentType : String) (url : String)

/-- The text carried by a part when it is a text part, "" otherwise
(Go: `part.IsText() ? part.Text : ""`). -/
def Part.textOf : Part → String
  | .text t => t
  | _ => ""

/-- Canonical message (ai.Message): a role and an ordered part list. -/
structure Message where
  role : String
  content : List Part

/-- Concatenation of the text of all text parts in order; this is both
`concatenateTextParts` of the HTTP variant and the genkit `msg.Text()`
helper used by the tool-calling variant. -/
def concatenateTextParts : List Part → String
  | [] => ""
  | p :: rest => p.textOf ++ concatenateTextParts rest

/-- The tool-request parts of a part list, in order. -/
def toolRequestsOf : List Part → List ToolRequest
  | [] => []
  | .toolRequest tr :: rest => tr :: toolRequestsOf rest
  | _ :: rest => toolRequestsOf rest

/-- The tool-response parts of a part list, in order. -/
def toolResponsesOf : List Part → List ToolResponse
  | [] => []
  | .toolResponse t :: rest => t :: toolResponsesOf rest
  | _ :: rest => toolResponsesOf rest

/-- Wire function-call payload (client.FunctionToCall): a function name
and the arguments as a JSON-carrying string. -/
structure FunctionToCall where
  name : String
  arguments : JStr

/-- Wire tool call (client.ToolCall). -/
structure ToolCall where
  id : String
  type : String
  function : FunctionToCall

/-- Wire message (the client library's message kinds as used by the
adapter): a plain chat message, an assistant message carrying tool calls
(client.ResponseMessage, content is an optional string), or a tool
result message (client.ToolMessage, content is a JSON-carrying string,
toolCallID the correlation id). -/
inductive ClientMessage where
  | chat (role : String) (content : String)
  | response (role : String) (toolCalls : List ToolCall) (content : Option String)
  | toolMsg (role : String) (content : JStr) (toolCallID : String)

/-- convertRole of the tool-calling variant: switch on the canonical
role string with a fail-open default. -/
def convertRole (role : String) : String :=
  if role = RoleUser then "user"
  else if role = RoleModel then "assistant"
  else if role = RoleSystem then "system"
  else if role = RoleTool then "tool"
  else "user"

/-- The per-key simplification rule applied by simplifyArguments and
(inlined) by toGenkitToolRequestParts: if the raw value is an object
containing a member named "value", use that member, else the raw value. -/
def simplifyVal (val : Json) : Json :=
  match val with
  | .obj fields =>
    match lookupKey "value" fields with
    | some inner => inner
    | none => val
  | _ => val

/-- The loop body of simplifyArguments over the decoded raw map: apply
the per-key rule independently to every key. -/
def simplifyRaw (rawArgs : List (String × Json)) : List (String × Json) :=
  rawArgs.map (fun kv => (kv.1, simplifyVal kv.2))

/-- simplifyArguments: unmarshal the arguments string into a raw map and
simplify each key. -/
def simplifyArguments (argsJSON : JStr) : Except String (List (String × Json)) :=
  match JStr.unmarshalObj argsJSON with
  | none => .error "failed to unmarshal tool arguments from string"
  | some rawArgs => .ok (simplifyRaw rawArgs)

/-- toGenkitToolRequestParts: adapt the wire tool calls into canonical
tool-request parts, unmarshalling and simplifying each call's arguments;
the first undecodable arguments string aborts with an error naming that
call's function. -/
def toGenkitToolRequestParts : List ToolCall → Except String (List Part)
  | [] => .ok []
  | call :: rest =>
    match JStr.unmarshalObj call.function.arguments with
    | none => .error ("failed to unmarshal tool arguments for " ++ call.function.name)
    | some rawArgs =>
      match toGenkitToolRequestParts rest with
      | .error e => .error e
      | .ok parts =>
        .ok (.toolRequest ⟨call.id, call.function.name,
              GoValue.json (Json.obj (simplifyRaw rawArgs))⟩ :: parts)

/-- The tool-call collection loop of toClientMessages' model branch:
marshal every tool-request part's input into a wire tool call, keeping
part order; a marshal failure aborts naming the tool. -/
def encodeModelParts : List Part → Except String (List ToolCall)
  | [] => .ok []
  | .toolRequest tr :: rest =>
    match GoValue.marshal tr.input with
    | none => .error ("failed to marshal tool input for " ++ tr.name)
    | some j =>
      match encodeModelParts rest with
      | .error e => .error e
      | .ok calls => .ok (⟨tr.ref, "function", ⟨tr.name, JStr.ofJson j⟩⟩ :: calls)
  | _ :: rest => encodeModelParts rest

/-- The tool-response loop of toClientMessages' tool branch: marshal
every tool-response part's output into a wire tool-result message,
keeping part order; a marshal failure aborts naming the tool. -/
def encodeToolParts : List Part → Except String (List ClientMessage)
  | [] => .ok []
  | .toolResponse t :: rest =>
    match GoValue.marshal t.output with
    | none => .error ("failed to marshal tool output for " ++ t.name)
    | some j =>
      match encodeToolParts rest with
      | .error e => .error e
      | .ok msgs => .ok (.toolMsg "tool" (JStr.ofJson j) t.ref :: msgs)
  | _ :: rest => encodeToolParts rest

/-- The per-message body of toClientMessages' switch on the role:
tool turns expand into tool-result messages, model turns into one
assistant tool-call message (priority) or one chat message when the
text is non-empty, user/system turns into one chat message, and any
other role falls through the switch emitting nothing. -/
def encodeMessage (msg : Message) : Except String (List ClientMessage) :=
  if msg.role = RoleTool then
    encodeToolParts msg.content
  else if msg.role = RoleModel then
    match encodeModelParts msg.content with
    | .error e => .error e
    | .ok toolCalls =>
      if toolCalls.length > 0 then
        .ok [.response "assistant" toolCalls (some "")]
      else if concatenateTextParts msg.content ≠ "" then
        .ok [.chat "assistant" (concatenateTextParts msg.content)]
      else
        .ok []
  else if msg.role = RoleUser ∨ msg.role = RoleSystem then
    .ok [.chat (convertRole msg.role) (concatenateTextParts msg.content)]
  else
    .ok []

/-- toClientMessages: encode the canonical history message by message in
order, concatenating the emitted wire messages; the first failing
message aborts the whole encoding. -/
def toClientMessages : List Message → Except String (List ClientMessage)
  | [] => .ok []
  | msg :: rest =>
    match encodeMessage msg with
    | .error e => .error e
    | .ok here =>
      match toClientMessages rest with
      | .error e => .error e
      | .ok more => .ok (here ++ more)

/-- Error entry of the client library's response (code and message). -/
structure ClientError where
  code : Int
  message : String

/-- Go fmt %v rendering of the response's error slice, as interpolated
into the tool-calling variant's error: entries as brace-wrapped
space-separated fields, the slice bracket-wrapped and space-separated. -/
def formatErrors (errs : List ClientError) : String :=
  "[" ++ String.intercalate " "
    (errs.map (fun e => "\x7b" ++ toString e.code ++ " " ++ e.message ++ "\x7d")) ++ "]"

/-- The client library reply as consumed by the tool-calling variant's
generate: success flag, error list, usage under either the legacy or the
chat-completion shape, the extracted tool calls and text content. -/
structure ClientResponse where
  success : Bool
  errors : List ClientError
  isLegacyResult : Bool
  legacyPromptTokens : Int
  legacyCompletionTokens : Int
  chatPromptTokens : Int
  chatCompletionTokens : Int
  toolCalls : List ToolCall
  content : String

/-- Canonical model response essentials produced by one turn. -/
structure ModelResponseOut where
  role : String
  content : List Part
  finishReason : String
  inputTokens : Int
  outputTokens : Int

/-- The response-processing tail of the tool-calling variant's generate
(after transport): fail when success is false interpolating the error
slice; otherwise populate usage from the legacy or chat shape and build
either tool-request parts or a single text part. -/
def processResponse (resp : ClientResponse) : Except String ModelResponseOut :=
  if resp.success = false then
    .error ("workersai API returned an error: " ++ formatErrors resp.errors)
  else
    let inTok := if resp.isLegacyResult then resp.legacyPromptTokens else resp.chatPromptTokens
    let outTok := if resp.isLegacyResult then resp.legacyCompletionTokens else resp.chatCompletionTokens
    if resp.toolCalls.length > 0 then
      match toGenkitToolRequestParts resp.toolCalls with
      | .error e => .error e
      | .ok parts => .ok ⟨RoleModel, parts, "stop", inTok, outTok⟩
    else
      .ok ⟨RoleModel, [Part.text resp.content], "stop", inTok, outTok⟩

/-- Whether the first character list starts the second. -/
def charsStartWith : List Char → List Char → Bool
  | [], _ => true
  | _ :: _, [] => false
  | a :: as, b :: bs => a == b && charsStartWith as bs

/-- Whether the first character list occurs contiguously in the second. -/
def charsContain : List Char → List Char → Bool
  | pat, [] => charsStartWith pat []
  | pat, b :: bs => charsStartWith pat (b :: bs) || charsContain pat bs

/-- Go strings.Contains: case-sensitive substring containment. -/
def strContains (s substr : String) : Bool :=
  charsContain substr.toList s.toList

/-- The first wire tool call whose arguments string does not unmarshal
into a raw map — the call whose name toGenkitToolRequestParts' error
reports. -/
def firstBadCall : List ToolCall → Option ToolCall
  | [] => none
  | call :: rest =>
    match JStr.unmarshalObj call.function.arguments with
    | none => some call
    | some _ => firstBadCall rest

/-- The first tool-response part whose output does not marshal — the
part whose name the tool-turn encoding error reports. -/
def firstBadOutput : List Part → Option ToolResponse
  | [] => none
  | .toolResponse t :: rest =>
    match GoValue.marshal t.output with
    | none => some t
    | some _ => firstBadOutput rest
  | _ :: rest => firstBadOutput rest

/-- The correlation ref of a part when it is a tool-request part. -/
def partRefOpt : Part → Option String
  | .toolRequest tr => some tr.ref
  | _ => none

/-- Whether a part is a text part. -/
def Part.isTextPart : Part → Bool
  | .text _ => true
  | _ => false

/-- Whether a part is a media part. -/
def Part.isMediaPart : Part → Bool
  | .media _ _ => true
  | _ => false

/-- A message with its media parts removed. -/
def stripMedia (msg : Message) : Message :=
  ⟨msg.role, msg.content.filter (fun p => !p.isMediaPart)⟩

/-- Whether a message makes toClientMessages fail: a model message with
a non-marshalable tool-request input, or a tool message with a
non-marshalable tool-response output. -/
def msgBad (msg : Message) : Bool :=
  if msg.role = RoleTool then
    (toolResponsesOf msg.content).any (fun t => (GoValue.marshal t.output).isNone)
  else if msg.role = RoleModel then
    (toolRequestsOf msg.content).any (fun tr => (GoValue.marshal tr.input).isNone)
  else false

/-- A wire tool call mirrors a canonical tool-request part: same id and
name, type "function", arguments the JSON encoding of the input. -/
def CallMirrors (tr : ToolRequest) (c : ToolCall) : Prop :=
  c.id = tr.ref ∧ c.type = "function" ∧ c.function.name = tr.name ∧
  ∃ j, GoValue.marshal tr.input = some j ∧ c.function.arguments = JStr.ofJson j

/-- A wire tool-result message mirrors a canonical tool-response part:
role "tool", content the JSON encoding of the output, toolCallID the
part's ref. -/
def RespMirrors (t : ToolResponse) (m : ClientMessage) : Prop :=
  ∃ j, GoValue.marshal t.output = some j ∧
    m = ClientMessage.toolMsg "tool" (JStr.ofJson j) t.ref

namespace HTTPVariant

/-- convertRole of the HTTP variant: no tool case, so the tool role
falls to the fail-open default. -/
def convertRole (role : String) : String :=
  if role = RoleUser then "user"
  else if role = RoleModel then "assistant"
  else if role = RoleSystem then "system"
  else "user"

/-- supportsChatFormat: case-sensitive substring test against the four
family names. -/
def supportsChatFormat (model : String) : Bool :=
  strContains model "llama" ||
  strContains model "mistral" ||
  strContains model "qwen" ||
  strContains model "gemma"

/-- buildPrompt: flatten the history into role-labelled lines, skipping
messages whose concatenated text is empty and roles without a case
(the tool role). -/
def buildPrompt : List Message → String
  | [] => ""
  | msg :: rest =>
    let content := concatenateTextParts msg.content
    (if content ≠ "" then
      if msg.role = RoleSystem then "System: " ++ content ++ "\n"
      else if msg.role = RoleUser then "User: " ++ content ++ "\n"
      else if msg.role = RoleModel then "Assistant: " ++ content ++ "\n"
      else ""
    else "") ++ buildPrompt rest

/-- Wire chat message of the HTTP variant (workersAIMessage). -/
structure WorkersAIMessage where
  role : String
  content : String

/-- Wire request of the HTTP variant (workersAIRequest). -/
structure WorkersAIRequest where
  messages : List WorkersAIMessage
  prompt : String
  stream : Bool

/-- The structured-chat message loop of the HTTP variant's generate:
one wire message per canonical message whose concatenated text is
non-empty, dropping empty ones. -/
def encodeChatMessages : List Message → List WorkersAIMessage
  | [] => []
  | msg :: rest =>
    let content := concatenateTextParts msg.content
    if content ≠ "" then ⟨convertRole msg.role, content⟩ :: encodeChatMessages rest
    else encodeChatMessages rest

/-- The request-building head of the HTTP variant's generate: dispatch
on supportsChatFormat between structured chat and the flattened
prompt. -/
def buildRequest (model : String) (messages : List Message) (streaming : Bool) : WorkersAIRequest :=
  if supportsChatFormat model then
    ⟨encodeChatMessages messages, "", streaming⟩
  else
    ⟨[], buildPrompt messages, streaming⟩

/-- Lowercasing of a character list (used only to state the spec's
case-insensitive reading of the dispatch). -/
def lowerChars (cs : List Char) : List Char := cs.map Char.toLower

/-- Follows the spec's words, for comparison with supportsChatFormat:
a model identifier matches a family name as a case-insensitive
substring. -/
def chatFormatSpec (model : String) : Bool :=
  charsContain "llama".toList (lowerChars model.toList) ||
  charsContain "mistral".toList (lowerChars model.toList) ||
  charsContain "qwen".toList (lowerChars model.toList) ||
  charsContain "gemma".toList (lowerChars model.toList)

/-- The line buildPrompt contributes for one message: a role-labelled
line for system/user/model messages with non-empty concatenated text,
nothing for empty text or any other role. -/
def promptLine (msg : Message) : String :=
  let content := concatenateTextParts msg.content
  if content ≠ "" then
    if msg.role = RoleSystem then "System: " ++ content ++ "\n"
    else if msg.role = RoleUser then "User: " ++ content ++ "\n"
    else if msg.role = RoleModel then "Assistant: " ++ content ++ "\n"
    else ""
  else ""

/-- Error entry of the HTTP variant's wire response. -/
structure WError where
  code : Int
  message : String

/-- Wire response of the HTTP variant (workersAIResponse with its
Result.Response string). -/
structure WorkersAIResponse where
  success : Bool
  response : String
  errors : List WError

/-- Canonical response essentials of the HTTP variant. -/
structure SimpleResponse where
  role : String
  content : List Part
  finishReason : String

/-- handleResponse of the HTTP variant (after body parsing): when
success is false, fail with the first reported error's message, or the
generic message when the error list is empty; otherwise one text part
and a stop finish reason. -/
def handleResponse (resp : WorkersAIResponse) : Except String SimpleResponse :=
  if resp.success = false then
    .error (match resp.errors with
      | [] => "API request failed"
      | e :: _ => e.message)
  else
    .ok ⟨RoleModel, [Part.text resp.response], "stop"⟩

end HTTPVariant

-- Helper lemmas -----------------------------------------------------------

theorem string_empty_append (s : String) : "" ++ s = s := rfl

theorem roleUser_ne_tool : RoleUser ≠ RoleTool := by decide

theorem roleUser_ne_model : RoleUser ≠ RoleModel := by decide

theorem roleSystem_ne_tool : RoleSystem ≠ RoleTool := by decide

theorem roleSystem_ne_model : RoleSystem ≠ RoleModel := by decide

theorem roleTool_ne_system : RoleTool ≠ RoleSystem := by decide

theorem roleTool_ne_user : RoleTool ≠ RoleUser := by decide

theorem roleTool_ne_model : RoleTool ≠ RoleModel := by decide

theorem roleModel_ne_tool : RoleModel ≠ RoleTool := by decide

theorem toClientMessages_singleton (msg : Message) :
    toClientMessages [msg] = encodeMessage msg := by
  cases h : encodeMessage msg with
  | error e => simp [toClientMessages, h]
  | ok l => simp [toClientMessages, h]

theorem lookupKey_simplifyRaw (k : String) (raw : List (String × Json)) :
    lookupKey k (simplifyRaw raw) = (lookupKey k raw).map simplifyVal := by
  induction raw with
  | nil => rfl
  | cons kv rest ih =>
    by_cases hk : kv.1 = k
    · simp [simplifyRaw, lookupKey, hk]
    · simp only [simplifyRaw] at ih
      simp [simplifyRaw, lookupKey, hk, ih]

-- C9 ----------------------------------------------------------------------

/-- C9 counterexample: the claim says convertRole sends the tool role to
"tool", but the HTTP variant's convertRole has no tool case and its
fail-open default sends the tool role to "user". -/
theorem c9_role_mapping_counterexample :
    HTTPVariant.convertRole RoleTool = "user" ∧ ("user" : String) ≠ "tool" :=
  ⟨rfl, by decide⟩

/-- C9 amended: both convertRole variants are pure total functions with
user→"user", model→"assistant", system→"system" and every unrecognized
role →"user"; the tool role maps to "tool" in the tool-calling variant
but to "user" in the HTTP variant, which lacks the tool case. -/
theorem c9_role_mapping_amended (r : String)
    (hu : r ≠ RoleUser) (hm : r ≠ RoleModel) (hs : r ≠ RoleSystem) (ht : r ≠ RoleTool) :
    convertRole RoleUser = "user" ∧ convertRole RoleModel = "assistant" ∧
    convertRole RoleSystem = "system" ∧ convertRole RoleTool = "tool" ∧
    convertRole r = "user" ∧
    HTTPVariant.convertRole RoleUser = "user" ∧
    HTTPVariant.convertRole RoleModel = "assistant" ∧
    HTTPVariant.convertRole RoleSystem = "system" ∧
    HTTPVariant.convertRole RoleTool = "user" ∧
    HTTPVariant.convertRole r = "user" := by
  refine ⟨rfl, rfl, rfl, rfl, ?_, rfl, rfl, rfl, rfl, ?_⟩
  · simp [convertRole, hu, hm, hs, ht]
  · simp [HTTPVariant.convertRole, hu, hm, hs]

theorem c9_role_mapping_amended_witness :
    convertRole "banana" = "user" ∧ HTTPVariant.convertRole "banana" = "user" := by
  have h := c9_role_mapping_amended "banana"
    (by decide) (by decide) (by decide) (by decide)
  exact ⟨h.2.2.2.2.1, h.2.2.2.2.2.2.2.2.2⟩

-- C8 ----------------------------------------------------------------------

/-- C8 counterexample: the claim says the encoder never emits a chat
message with empty content, but toClientMessages encodes a user message
with no parts into a chat message whose content is the empty string. -/
theorem c8_empty_message_counterexample :
    toClientMessages [⟨RoleUser, []⟩] = .ok [ClientMessage.chat "user" ""] := rfl

/-- C8 amended: the HTTP variant's structured-chat loop drops messages
whose concatenated text is empty (its wire sequence never holds an
empty-content message), while toClientMessages encodes every user or
system message into one chat message unconditionally, empty or not. -/
theorem c8_empty_drop_amended (msgs : List Message) :
    (∀ m ∈ HTTPVariant.encodeChatMessages msgs, m.content ≠ "") ∧
    (∀ msg : Message, msg.role = RoleUser ∨ msg.role = RoleSystem →
      encodeMessage msg =
        .ok [ClientMessage.chat (convertRole msg.role) (concatenateTextParts msg.content)]) := by
  constructor
  · induction msgs with
    | nil => intro m hm; cases hm
    | cons msg rest ih =>
      intro m hm
      by_cases hc : concatenateTextParts msg.content = ""
      · rw [HTTPVariant.encodeChatMessages, if_neg (by simp [hc])] at hm
        exact ih m hm
      · rw [HTTPVariant.encodeChatMessages, if_pos (by simp [hc])] at hm
        rcases List.mem_cons.mp hm with h | h
        · subst h; exact hc
        · exact ih m h
  · intro msg hrole
    rcases hrole with h | h
    · simp [encodeMessage, h, roleUser_ne_tool, roleUser_ne_model]
    · simp [encodeMessage, h, roleSystem_ne_tool, roleSystem_ne_model]

theorem c8_empty_drop_amended_witness :
    encodeMessage ⟨RoleUser, []⟩ = .ok [ClientMessage.chat "user" ""] :=
  (c8_empty_drop_amended []).2 ⟨RoleUser, []⟩ (Or.inl rfl)

-- C7 ----------------------------------------------------------------------

/-- C7 counterexample: the claim says the dispatch is a case-insensitive
substring match, but supportsChatFormat uses a case-sensitive
strings.Contains: "LLAMA" matches the family set case-insensitively yet
selects the flattened-prompt path. -/
theorem c7_dispatch_counterexample :
    HTTPVariant.supportsChatFormat "LLAMA" = false ∧
    HTTPVariant.chatFormatSpec "LLAMA" = true := ⟨rfl, rfl⟩

/-- C7 amended: the dispatch is a case-sensitive substring match against
llama/mistral/qwen/gemma; every non-matching identifier gets a flattened
prompt whose per-message lines are role-labelled and which skips tool
turns and messages with empty concatenated text. -/
theorem c7_dispatch_amended (model : String) (msgs : List Message) (streaming : Bool) :
    (HTTPVariant.supportsChatFormat model = true ↔
      strContains model "llama" = true ∨ strContains model "mistral" = true ∨
      strContains model "qwen" = true ∨ strContains model "gemma" = true) ∧
    (HTTPVariant.supportsChatFormat model = false →
      HTTPVariant.buildRequest model msgs streaming =
        ⟨[], HTTPVariant.buildPrompt msgs, streaming⟩) ∧
    (HTTPVariant.supportsChatFormat model = true →
      HTTPVariant.buildRequest model msgs streaming =
        ⟨HTTPVariant.encodeChatMessages msgs, "", streaming⟩) ∧
    (HTTPVariant.buildPrompt msgs =
      (msgs.map HTTPVariant.promptLine).foldr (fun a b => a ++ b) "") ∧
    (∀ (msg : Message) (rest : List Message),
      msg.role = RoleTool ∨ concatenateTextParts msg.content = "" →
      HTTPVariant.buildPrompt (msg :: rest) = HTTPVariant.buildPrompt rest) := by
  refine ⟨?_, ?_, ?_, ?_, ?_⟩
  · simp [HTTPVariant.supportsChatFormat, or_assoc]
  · intro h; simp [HTTPVariant.buildRequest, h]
  · intro h; simp [HTTPVariant.buildRequest, h]
  · induction msgs with
    | nil => rfl
    | cons msg rest ih =>
      show HTTPVariant.promptLine msg ++ HTTPVariant.buildPrompt rest = _
      rw [ih]; rfl
  · intro msg rest h
    rcases h with h | h
    · show HTTPVariant.promptLine msg ++ HTTPVariant.buildPrompt rest = _
      by_cases hc : concatenateTextParts msg.content = ""
      · rw [HTTPVariant.promptLine]; simp [hc, string_empty_append]
      · rw [HTTPVariant.promptLine]
        simp [hc, h, roleTool_ne_system, roleTool_ne_user, roleTool_ne_model,
          string_empty_append]
    · show HTTPVariant.promptLine msg ++ HTTPVariant.buildPrompt rest = _
      rw [HTTPVariant.promptLine]; simp [h, string_empty_append]

theorem c7_dispatch_amended_witness :
    HTTPVariant.buildRequest "text-embedder" [⟨RoleUser, [Part.text "Hi"]⟩] false =
      ⟨[], HTTPVariant.buildPrompt [⟨RoleUser, [Part.text "Hi"]⟩], false⟩ :=
  (c7_dispatch_amended "text-embedder" [⟨RoleUser, [Part.text "Hi"]⟩] false).2.1 rfl

-- C6 ----------------------------------------------------------------------

/-- C6 counterexample: the claim says the error carries the first
reported code and message, but handleResponse's error is exactly the
first message; the code 500 (whose decimal digits include '5') appears
nowhere in the error "boom". -/
theorem c6_provider_error_counterexample :
    HTTPVariant.handleResponse ⟨false, "", [⟨500, "boom"⟩]⟩ = .error "boom" ∧
    strContains "boom" "500" = false ∧ strContains "boom" "5" = false :=
  ⟨rfl, rfl, rfl⟩

/-- C6 amended: when success is false no canonical response is produced:
handleResponse fails with exactly the first reported error's message
(dropping its code) when the list is non-empty and with the generic
"API request failed" otherwise, and the tool-calling variant's response
processing fails interpolating the whole formatted error list. -/
theorem c6_provider_error_amended (resp : HTTPVariant.WorkersAIResponse)
    (h : resp.success = false) :
    HTTPVariant.handleResponse resp = .error
      (match resp.errors with
       | [] => "API request failed"
       | e :: _ => e.message) ∧
    ∀ cresp : ClientResponse, cresp.success = false →
      processResponse cresp =
        .error ("workersai API returned an error: " ++ formatErrors cresp.errors) := by
  constructor
  · simp [HTTPVariant.handleResponse, h]
  · intro cresp hc
    simp [processResponse, hc]

theorem c6_provider_error_amended_witness :
    HTTPVariant.handleResponse ⟨false, "", []⟩ = .error "API request failed" :=
  (c6_provider_error_amended ⟨false, "", []⟩ rfl).1

theorem encodeModelParts_ok_iff (parts : List Part) :
    (∃ calls, encodeModelParts parts = .ok calls) ↔
      ∀ tr ∈ toolRequestsOf parts, (GoValue.marshal tr.input).isSome = true := by
  induction parts with
  | nil => simp [encodeModelParts, toolRequestsOf]
  | cons p rest ih =>
    cases p with
    | toolRequest tr =>
      cases hm : GoValue.marshal tr.input with
      | none => simp [encodeModelParts, toolRequestsOf, hm]
      | some j =>
        cases hrec : encodeModelParts rest with
        | error e =>
          have hne : ¬ ∀ tr' ∈ toolRequestsOf rest,
              (GoValue.marshal tr'.input).isSome = true := by
            intro hall
            rcases ih.mpr hall with ⟨cs, hcs⟩
            rw [hcs] at hrec
            cases hrec
          simp [encodeModelParts, toolRequestsOf, hm, hrec, List.forall_mem_cons, hne]
        | ok cs =>
          have hall := ih.mp ⟨cs, hrec⟩
          simp only [encodeModelParts, hm, hrec, toolRequestsOf]
          simp [List.forall_mem_cons, hm]
          exact hall
    | text t => simpa [encodeModelParts, toolRequestsOf] using ih
    | toolResponse t => simpa [encodeModelParts, toolRequestsOf] using ih
    | media ct url => simpa [encodeModelParts, toolRequestsOf] using ih

theorem encodeModelParts_ok_mirrors (parts : List Part) (calls : List ToolCall)
    (h : encodeModelParts parts = .ok calls) :
    List.Forall₂ CallMirrors (toolRequestsOf parts) calls := by
  induction parts generalizing calls with
  | nil =>
    simp only [encodeModelParts] at h
    cases h
    exact List.Forall₂.nil
  | cons p rest ih =>
    cases p with
    | toolRequest tr =>
      cases hm : GoValue.marshal tr.input with
      | none => simp only [encodeModelParts, hm] at h; cases h
      | some j =>
        simp only [encodeModelParts, hm] at h
        cases hrec : encodeModelParts rest with
        | error e => rw [hrec] at h; cases h
        | ok cs =>
          rw [hrec] at h
          cases h
          exact List.Forall₂.cons ⟨rfl, rfl, rfl, j, hm, rfl⟩ (ih cs hrec)
    | text t =>
      simp only [encodeModelParts] at h
      simpa [toolRequestsOf] using ih calls h
    | toolResponse t =>
      simp only [encodeModelParts] at h
      simpa [toolRequestsOf] using ih calls h
    | media ct url =>
      simp only [encodeModelParts] at h
      simpa [toolRequestsOf] using ih calls h

theorem encodeToolParts_ok_iff (parts : List Part) :
    (∃ msgs, encodeToolParts parts = .ok msgs) ↔
      ∀ t ∈ toolResponsesOf parts, (GoValue.marshal t.output).isSome = true := by
  induction parts with
  | nil => simp [encodeToolParts, toolResponsesOf]
  | cons p rest ih =>
    cases p with
    | toolResponse t =>
      cases hm : GoValue.marshal t.output with
      | none => simp [encodeToolParts, toolResponsesOf, hm]
      | some j =>
        cases hrec : encodeToolParts rest with
        | error e =>
          have hne : ¬ ∀ t' ∈ toolResponsesOf rest,
              (GoValue.marshal t'.output).isSome = true := by
            intro hall
            rcases ih.mpr hall with ⟨ms, hms⟩
            rw [hms] at hrec
            cases hrec
          simp [encodeToolParts, toolResponsesOf, hm, hrec, List.forall_mem_cons, hne]
        | ok ms =>
          have hall := ih.mp ⟨ms, hrec⟩
          simp only [encodeToolParts, hm, hrec, toolResponsesOf]
          simp [List.forall_mem_cons, hm]
          exact hall
    | text s => simpa [encodeToolParts, toolResponsesOf] using ih
    | toolRequest tr => simpa [encodeToolParts, toolResponsesOf] using ih
    | media ct url => simpa [encodeToolParts, toolResponsesOf] using ih

theorem encodeToolParts_ok_mirrors (parts : List Part) (msgs : List ClientMessage)
    (h : encodeToolParts parts = .ok msgs) :
    List.Forall₂ RespMirrors (toolResponsesOf parts) msgs := by
  induction parts generalizing msgs with
  | nil =>
    simp only [encodeToolParts] at h
    cases h
    exact List.Forall₂.nil
  | cons p rest ih =>
    cases p with
    | toolResponse t =>
      cases hm : GoValue.marshal t.output with
      | none => simp only [encodeToolParts, hm] at h; cases h
      | some j =>
        simp only [encodeToolParts, hm] at h
        cases hrec : encodeToolParts rest with
        | error e => rw [hrec] at h; cases h
        | ok ms =>
          rw [hrec] at h
          cases h
          exact List.Forall₂.cons ⟨j, hm, rfl⟩ (ih ms hrec)
    | text s =>
      simp only [encodeToolParts] at h
      simpa [toolResponsesOf] using ih msgs h
    | toolRequest tr =>
      simp only [encodeToolParts] at h
      simpa [toolResponsesOf] using ih msgs h
    | media ct url =>
      simp only [encodeToolParts] at h
      simpa [toolResponsesOf] using ih msgs h

theorem encodeToolParts_error_first (parts : List Part) (t : ToolResponse)
    (h : firstBadOutput parts = some t) :
    encodeToolParts parts = .error ("failed to marshal tool output for " ++ t.name) := by
  induction parts with
  | nil => cases h
  | cons p rest ih =>
    cases p with
    | toolResponse t' =>
      cases hm : GoValue.marshal t'.output with
      | none =>
        simp only [firstBadOutput, hm] at h
        cases h
        simp [encodeToolParts, hm]
      | some j =>
        simp only [firstBadOutput, hm] at h
        have hrec := ih h
        simp [encodeToolParts, hm, hrec]
    | text s =>
      simp only [firstBadOutput] at h
      have hrec := ih h
      simp [encodeToolParts, hrec]
    | toolRequest tr =>
      simp only [firstBadOutput] at h
      have hrec := ih h
      simp [encodeToolParts, hrec]
    | media ct url =>
      simp only [firstBadOutput] at h
      have hrec := ih h
      simp [encodeToolParts, hrec]

theorem forall2_call_ids {trs : List ToolRequest} {calls : List ToolCall}
    (h : List.Forall₂ CallMirrors trs calls) :
    calls.map ToolCall.id = trs.map ToolRequest.ref := by
  induction h with
  | nil => rfl
  | cons hc htail ih => simp [hc.1, ih]

theorem forall2_args_decodable {trs : List ToolRequest} {calls : List ToolCall}
    (h : List.Forall₂ CallMirrors trs calls)
    (hobj : ∀ tr ∈ trs, ∃ m, tr.input = GoValue.json (Json.obj m)) :
    ∀ c ∈ calls, (JStr.unmarshalObj c.function.arguments).isSome = true := by
  induction h with
  | nil => intro c hc; cases hc
  | cons hc htail ih =>
    intro c hcm
    rcases List.mem_cons.mp hcm with rfl | hmem
    · rcases hobj _ (List.mem_cons_self _ _) with ⟨m, hm⟩
      rcases hc.2.2.2 with ⟨j, hj, hargs⟩
      rw [hm] at hj
      cases hj
      rw [hargs]
      rfl
    · exact ih (fun tr htr => hobj tr (List.mem_cons_of_mem _ htr)) c hmem

theorem toGenkit_ok_refs (calls : List ToolCall) (parts : List Part)
    (h : toGenkitToolRequestParts calls = .ok parts) :
    parts.map partRefOpt = calls.map (fun c => some c.id) := by
  induction calls generalizing parts with
  | nil =>
    simp only [toGenkitToolRequestParts] at h
    cases h
    rfl
  | cons call rest ih =>
    cases hu : JStr.unmarshalObj call.function.arguments with
    | none => simp only [toGenkitToolRequestParts, hu] at h; cases h
    | some raw =>
      simp only [toGenkitToolRequestParts, hu] at h
      cases hrec : toGenkitToolRequestParts rest with
      | error e => rw [hrec] at h; cases h
      | ok ps =>
        rw [hrec] at h
        cases h
        simp [partRefOpt, ih ps hrec]

theorem toClientMessages_error_of_mem (msgs : List Message) (msg : Message)
    (hmem : msg ∈ msgs) (e : String) (he : encodeMessage msg = .error e) :
    ∃ e', toClientMessages msgs = .error e' := by
  induction msgs with
  | nil => cases hmem
  | cons m rest ih =>
    rcases List.mem_cons.mp hmem with rfl | hmem'
    · exact ⟨e, by simp [toClientMessages, he]⟩
    · cases hm : encodeMessage m with
      | error e'' => exact ⟨e'', by simp [toClientMessages, hm]⟩
      | ok l =>
        rcases ih hmem' with ⟨e', he'⟩
        exact ⟨e', by simp [toClientMessages, hm, he']⟩

-- C2 ----------------------------------------------------------------------

/-- C2 confirmed: for a JSON object successfully decoded from the
arguments string, every key is normalized independently: an object
value containing a member named "value" is replaced by that member, any
other value is kept unchanged, so simple and verbose keys may mix and
simple keys survive untouched. -/
theorem c2_argument_normalization (raw : List (String × Json)) (k : String) (v : Json)
    (h : lookupKey k raw = some v) :
    simplifyArguments (JStr.ofJson (Json.obj raw)) = .ok (simplifyRaw raw) ∧
    lookupKey k (simplifyRaw raw) = some (simplifyVal v) ∧
    (∀ fields w, v = Json.obj fields → lookupKey "value" fields = some w →
      lookupKey k (simplifyRaw raw) = some w) ∧
    ((∀ fields, v = Json.obj fields → lookupKey "value" fields = none) →
      lookupKey k (simplifyRaw raw) = some v) := by
  refine ⟨rfl, ?_, ?_, ?_⟩
  · rw [lookupKey_simplifyRaw, h]; rfl
  · intro fields w hv hw
    rw [lookupKey_simplifyRaw, h, hv]
    simp [simplifyVal, hw]
  · intro hsimple
    rw [lookupKey_simplifyRaw, h]
    cases v with
    | obj fields =>
      have hnone : lookupKey "value" fields = none := hsimple fields rfl
      simp [simplifyVal, hnone]
    | null => rfl
    | bool b => rfl
    | num n => rfl
    | str s => rfl
    | arr elems => rfl

theorem c2_argument_normalization_witness :
    simplifyArguments (JStr.ofJson (Json.obj
        [("x", Json.num 3),
         ("y", Json.obj [("type", Json.str "string"), ("value", Json.str "a")])])) =
      .ok [("x", Json.num 3), ("y", Json.str "a")] ∧
    lookupKey "y" (simplifyRaw
        [("x", Json.num 3),
         ("y", Json.obj [("type", Json.str "string"), ("value", Json.str "a")])]) =
      some (Json.str "a") := by
  have h := c2_argument_normalization
    [("x", Json.num 3),
     ("y", Json.obj [("type", Json.str "string"), ("value", Json.str "a")])]
    "y" (Json.obj [("type", Json.str "string"), ("value", Json.str "a")]) rfl
  exact ⟨h.1, h.2.2.1 [("type", Json.str "string"), ("value", Json.str "a")]
    (Json.str "a") rfl rfl⟩

-- C5 ----------------------------------------------------------------------

theorem toGenkit_ok_iff (calls : List ToolCall) :
    (∃ parts, toGenkitToolRequestParts calls = .ok parts) ↔
      ∀ c ∈ calls, (JStr.unmarshalObj c.function.arguments).isSome = true := by
  induction calls with
  | nil => simp [toGenkitToolRequestParts]
  | cons call rest ih =>
    cases h : JStr.unmarshalObj call.function.arguments with
    | none => simp [toGenkitToolRequestParts, h]
    | some raw =>
      cases hrec : toGenkitToolRequestParts rest with
      | error e =>
        have hne : ¬ ∀ c ∈ rest, (JStr.unmarshalObj c.function.arguments).isSome = true := by
          intro hall
          rcases ih.mpr hall with ⟨p, hp⟩
          rw [hp] at hrec
          cases hrec
        simp [toGenkitToolRequestParts, h, hrec, hne]
      | ok parts =>
        have hall := ih.mp ⟨parts, hrec⟩
        simp only [toGenkitToolRequestParts, h, hrec]
        simp [List.forall_mem_cons, h]
        exact hall

theorem toGenkit_error_first (calls : List ToolCall) (c : ToolCall)
    (h : firstBadCall calls = some c) :
    toGenkitToolRequestParts calls =
      .error ("failed to unmarshal tool arguments for " ++ c.function.name) := by
  induction calls with
  | nil => cases h
  | cons call rest ih =>
    cases hu : JStr.unmarshalObj call.function.arguments with
    | none =>
      simp only [firstBadCall, hu] at h
      cases h
      simp [toGenkitToolRequestParts, hu]
    | some raw =>
      simp only [firstBadCall, hu] at h
      have hrec := ih h
      simp [toGenkitToolRequestParts, hu, hrec]

/-- C5 counterexample: the claim says decoding errors exactly when some
arguments string is not valid JSON, but the arguments string "5" is
valid JSON (a number) and decoding still fails, because unmarshalling
into a raw map rejects any non-object top-level value. -/
theorem c5_decode_counterexample :
    toGenkitToolRequestParts [⟨"1", "function", ⟨"f", JStr.ofJson (Json.num 5)⟩⟩] =
      .error "failed to unmarshal tool arguments for f" ∧
    JStr.valid (JStr.ofJson (Json.num 5)) = true := ⟨rfl, rfl⟩

/-- C5 amended: toGenkitToolRequestParts succeeds exactly when every
call's arguments string unmarshals into a raw map (valid JSON whose top
value is an object, or null); the first offending call aborts with an
error naming its function and no partial list; malformed JSON is always
such an offender; an empty call list yields an empty result. -/
theorem c5_decode_fail_closed_amended (calls : List ToolCall) :
    ((∃ parts, toGenkitToolRequestParts calls = .ok parts) ↔
      ∀ c ∈ calls, (JStr.unmarshalObj c.function.arguments).isSome = true) ∧
    toGenkitToolRequestParts [] = .ok [] ∧
    (∀ c, firstBadCall calls = some c →
      toGenkitToolRequestParts calls =
        .error ("failed to unmarshal tool arguments for " ++ c.function.name)) ∧
    (∀ c ∈ calls, JStr.valid c.function.arguments = false →
      ∃ e, toGenkitToolRequestParts calls = .error e) := by
  refine ⟨toGenkit_ok_iff calls, rfl, fun c h => toGenkit_error_first calls c h, ?_⟩
  intro c hc hv
  cases hres : toGenkitToolRequestParts calls with
  | error e => exact ⟨e, rfl⟩
  | ok parts =>
    have hsome := (toGenkit_ok_iff calls).mp ⟨parts, hres⟩ c hc
    cases harg : c.function.arguments with
    | ofJson j => rw [harg] at hv; cases hv
    | malformed s => rw [harg] at hsome; cases hsome

theorem c5_decode_fail_closed_amended_witness :
    toGenkitToolRequestParts [⟨"1", "function", ⟨"f", JStr.malformed "\x7b\"x\": "⟩⟩] =
      .error "failed to unmarshal tool arguments for f" :=
  (c5_decode_fail_closed_amended
      [⟨"1", "function", ⟨"f", JStr.malformed "\x7b\"x\": "⟩⟩]).2.2.1
    ⟨"1", "function", ⟨"f", JStr.malformed "\x7b\"x\": "⟩⟩ rfl

-- C3 ----------------------------------------------------------------------

/-- C3 confirmed: a model message with at least one tool-request part
(all of whose inputs marshal, so the collection loop yields calls)
encodes to exactly one assistant wire message mirroring every
tool-request part in order (id = ref, name = name, type "function",
arguments = JSON-encoded input) with an explicit empty-string content,
dropping any text parts; with no tool-request part it encodes to one
plain assistant chat message exactly when the concatenated text is
non-empty, and to nothing otherwise. -/
theorem c3_model_turn_encoding (msg : Message) (calls : List ToolCall)
    (hrole : msg.role = RoleModel)
    (henc : encodeModelParts msg.content = .ok calls) :
    List.Forall₂ CallMirrors (toolRequestsOf msg.content) calls ∧
    (calls ≠ [] →
      toClientMessages [msg] = .ok [ClientMessage.response "assistant" calls (some "")]) ∧
    (calls = [] → concatenateTextParts msg.content ≠ "" →
      toClientMessages [msg] =
        .ok [ClientMessage.chat "assistant" (concatenateTextParts msg.content)]) ∧
    (calls = [] → concatenateTextParts msg.content = "" →
      toClientMessages [msg] = .ok []) := by
  refine ⟨encodeModelParts_ok_mirrors _ _ henc, ?_, ?_, ?_⟩
  · intro hne
    rw [toClientMessages_singleton]
    simp [encodeMessage, hrole, roleModel_ne_tool, henc, List.length_pos, hne]
  · intro hnil htext
    subst hnil
    rw [toClientMessages_singleton]
    simp [encodeMessage, hrole, roleModel_ne_tool, henc, htext]
  · intro hnil htext
    subst hnil
    rw [toClientMessages_singleton]
    simp [encodeMessage, hrole, roleModel_ne_tool, henc, htext]

theorem c3_model_turn_encoding_witness :
    toClientMessages [⟨RoleModel,
        [Part.text "thinking",
         Part.toolRequest ⟨"call-1", "f", GoValue.json (Json.obj [])⟩]⟩] =
      .ok [ClientMessage.response "assistant"
        [⟨"call-1", "function", ⟨"f", JStr.ofJson (Json.obj [])⟩⟩] (some "")] :=
  (c3_model_turn_encoding
      ⟨RoleModel,
        [Part.text "thinking",
         Part.toolRequest ⟨"call-1", "f", GoValue.json (Json.obj [])⟩]⟩
      [⟨"call-1", "function", ⟨"f", JStr.ofJson (Json.obj [])⟩⟩]
      rfl rfl).2.1 (by simp)

-- C4 ----------------------------------------------------------------------

/-- C4 confirmed: a tool message encodes to one tool-result wire message
per tool-response part in order, with role "tool", content the JSON
encoding of the part's output and toolCallID the part's ref; if some
part's output does not marshal, the first such part aborts the message's
encoding with an error naming that tool, and the encoding of any history
containing the message fails. -/
theorem c4_tool_turn_encoding (msg : Message) (hrole : msg.role = RoleTool) :
    (∀ wmsgs, toClientMessages [msg] = .ok wmsgs →
      List.Forall₂ RespMirrors (toolResponsesOf msg.content) wmsgs) ∧
    (∀ t, firstBadOutput msg.content = some t →
      toClientMessages [msg] =
        .error ("failed to marshal tool output for " ++ t.name) ∧
      ∀ msgs, msg ∈ msgs → ∃ e, toClientMessages msgs = .error e) := by
  have hmsg : encodeMessage msg = encodeToolParts msg.content := by
    simp [encodeMessage, hrole]
  constructor
  · intro wmsgs h
    rw [toClientMessages_singleton, hmsg] at h
    exact encodeToolParts_ok_mirrors _ _ h
  · intro t ht
    have herr := encodeToolParts_error_first _ t ht
    refine ⟨?_, ?_⟩
    · rw [toClientMessages_singleton, hmsg, herr]
    · intro msgs hmem
      exact toClientMessages_error_of_mem msgs msg hmem _ (by rw [hmsg, herr])

theorem c4_tool_turn_encoding_witness :
    List.Forall₂ RespMirrors
      (toolResponsesOf [Part.toolResponse ⟨"call-1", "f", GoValue.json (Json.str "ok")⟩])
      [ClientMessage.toolMsg "tool" (JStr.ofJson (Json.str "ok")) "call-1"] :=
  (c4_tool_turn_encoding
      ⟨RoleTool, [Part.toolResponse ⟨"call-1", "f", GoValue.json (Json.str "ok")⟩]⟩
      rfl).1
    [ClientMessage.toolMsg "tool" (JStr.ofJson (Json.str "ok")) "call-1"] rfl

-- C1 ----------------------------------------------------------------------

/-- C1 confirmed: for a model turn with tool-request parts (each input a
JSON object, as produced canonically), encoding yields one assistant
wire message whose tool calls carry id = ref in the original part
order, and decoding a provider reply carrying those same calls through
toGenkitToolRequestParts reconstructs one ToolRequestPart per call
whose ref equals that call's id, in the same order. -/
theorem c1_tool_correlation_roundtrip (msg : Message)
    (hrole : msg.role = RoleModel)
    (hne : toolRequestsOf msg.content ≠ [])
    (hobj : ∀ tr ∈ toolRequestsOf msg.content, ∃ m, tr.input = GoValue.json (Json.obj m)) :
    ∃ calls parts,
      toClientMessages [msg] = .ok [ClientMessage.response "assistant" calls (some "")] ∧
      calls.map ToolCall.id = (toolRequestsOf msg.content).map ToolRequest.ref ∧
      toGenkitToolRequestParts calls = .ok parts ∧
      parts.map partRefOpt = calls.map (fun c => some c.id) := by
  have hok : ∃ calls, encodeModelParts msg.content = .ok calls := by
    apply (encodeModelParts_ok_iff msg.content).mpr
    intro tr htr
    rcases hobj tr htr with ⟨m, hm⟩
    rw [hm]
    rfl
  rcases hok with ⟨calls, hcalls⟩
  have hmirror := encodeModelParts_ok_mirrors _ _ hcalls
  have hids := forall2_call_ids hmirror
  have hlen : calls ≠ [] := by
    intro hnil
    subst hnil
    exact hne (List.forall₂_nil_right_iff.mp hmirror)
  have hdec := forall2_args_decodable hmirror hobj
  rcases (toGenkit_ok_iff calls).mpr hdec with ⟨parts, hparts⟩
  refine ⟨calls, parts, ?_, hids, hparts, toGenkit_ok_refs calls parts hparts⟩
  rw [toClientMessages_singleton]
  simp [encodeMessage, hrole, roleModel_ne_tool, hcalls, List.length_pos, hlen]

theorem c1_tool_correlation_roundtrip_witness :
    ∃ calls parts,
      toClientMessages [⟨RoleModel,
          [Part.text "t",
           Part.toolRequest ⟨"a", "f", GoValue.json (Json.obj [])⟩,
           Part.toolRequest ⟨"b", "g", GoValue.json (Json.obj [("x", Json.num 1)])⟩]⟩] =
        .ok [ClientMessage.response "assistant" calls (some "")] ∧
      calls.map ToolCall.id =
        (toolRequestsOf
          [Part.text "t",
           Part.toolRequest ⟨"a", "f", GoValue.json (Json.obj [])⟩,
           Part.toolRequest ⟨"b", "g", GoValue.json (Json.obj [("x", Json.num 1)])⟩]).map
          ToolRequest.ref ∧
      toGenkitToolRequestParts calls = .ok parts ∧
      parts.map partRefOpt = calls.map (fun c => some c.id) :=
  c1_tool_correlation_roundtrip
    ⟨RoleModel,
      [Part.text "t",
       Part.toolRequest ⟨"a", "f", GoValue.json (Json.obj [])⟩,
       Part.toolRequest ⟨"b", "g", GoValue.json (Json.obj [("x", Json.num 1)])⟩]⟩
    rfl
    (by intro h; simp [toolRequestsOf] at h)
    (by
      intro tr htr
      simp [toolRequestsOf] at htr
      rcases htr with rfl | rfl
      · exact ⟨[], rfl⟩
      · exact ⟨[("x", Json.num 1)], rfl⟩)

-- C10 ---------------------------------------------------------------------

theorem isSome_iff_not_isNone (o : Option Json) : o.isSome = true ↔ ¬(o.isNone = true) := by
  cases o <;> simp

theorem encodeMessage_ok_iff (msg : Message) :
    (∃ l, encodeMessage msg = .ok l) ↔ msgBad msg = false := by
  by_cases ht : msg.role = RoleTool
  · have hmsg : encodeMessage msg = encodeToolParts msg.content := by
      simp [encodeMessage, ht]
    rw [hmsg, msgBad, if_pos ht, encodeToolParts_ok_iff, List.any_eq_false]
    constructor
    · intro hall t htm
      rw [← isSome_iff_not_isNone]
      exact hall t htm
    · intro hall t htm
      rw [isSome_iff_not_isNone]
      exact hall t htm
  · by_cases hm : msg.role = RoleModel
    · rw [msgBad, if_neg ht, if_pos hm]
      rw [List.any_eq_false]
      constructor
      · intro hex tr htm
        rw [← isSome_iff_not_isNone]
        rcases hex with ⟨l, hl⟩
        cases henc : encodeModelParts msg.content with
        | error e => simp [encodeMessage, ht, hm, roleModel_ne_tool, henc] at hl
        | ok cs => exact (encodeModelParts_ok_iff msg.content).mp ⟨cs, henc⟩ tr htm
      · intro hall
        have hsome : ∀ tr ∈ toolRequestsOf msg.content,
            (GoValue.marshal tr.input).isSome = true := by
          intro tr htm
          rw [isSome_iff_not_isNone]
          exact hall tr htm
        rcases (encodeModelParts_ok_iff msg.content).mpr hsome with ⟨cs, hcs⟩
        by_cases hpos : cs.length > 0
        · exact ⟨[ClientMessage.response "assistant" cs (some "")],
            by simp [encodeMessage, ht, hm, roleModel_ne_tool, hcs, hpos]⟩
        · by_cases htext : concatenateTextParts msg.content = ""
          · exact ⟨[],
              by simp [encodeMessage, ht, hm, roleModel_ne_tool, hcs, hpos, htext]⟩
          · exact ⟨[ClientMessage.chat "assistant" (concatenateTextParts msg.content)],
              by simp [encodeMessage, ht, hm, roleModel_ne_tool, hcs, hpos, htext]⟩
    · have hbad : msgBad msg = false := by rw [msgBad, if_neg ht, if_neg hm]
      rw [hbad]
      simp only [iff_true]
      rw [encodeMessage, if_neg ht, if_neg hm]
      by_cases hus : msg.role = RoleUser ∨ msg.role = RoleSystem
      · exact ⟨_, by rw [if_pos hus]⟩
      · exact ⟨_, by rw [if_neg hus]⟩

theorem toClientMessages_ok_iff (msgs : List Message) :
    (∃ l, toClientMessages msgs = .ok l) ↔ ∀ msg ∈ msgs, msgBad msg = false := by
  induction msgs with
  | nil => simp [toClientMessages]
  | cons m rest ih =>
    cases hm : encodeMessage m with
    | error e =>
      have hbad : msgBad m = true := by
        cases hb : msgBad m
        · rcases (encodeMessage_ok_iff m).mpr hb with ⟨l, hl⟩
          rw [hl] at hm
          cases hm
        · rfl
      simp [toClientMessages, hm, List.forall_mem_cons, hbad]
    | ok l =>
      have hgood : msgBad m = false := (encodeMessage_ok_iff m).mp ⟨l, hm⟩
      cases hrec : toClientMessages rest with
      | error e =>
        have hne : ¬ ∀ msg ∈ rest, msgBad msg = false := by
          intro hall
          rcases ih.mpr hall with ⟨l', hl'⟩
          rw [hl'] at hrec
          cases hrec
        simp [toClientMessages, hm, hrec, List.forall_mem_cons, hgood, hne]
      | ok l' =>
        have hall := ih.mp ⟨l', hrec⟩
        simp only [toClientMessages, hm, hrec]
        simp [List.forall_mem_cons, hgood]
        exact hall

theorem isMediaPart_media (ct url : String) : (Part.media ct url).isMediaPart = true := rfl

theorem isMediaPart_text (t : String) : (Part.text t).isMediaPart = false := rfl

theorem isMediaPart_toolRequest (tr : ToolRequest) :
    (Part.toolRequest tr).isMediaPart = false := rfl

theorem isMediaPart_toolResponse (t : ToolResponse) :
    (Part.toolResponse t).isMediaPart = false := rfl

theorem concatenateTextParts_strip (parts : List Part) :
    concatenateTextParts (parts.filter (fun p => !p.isMediaPart)) =
      concatenateTextParts parts := by
  induction parts with
  | nil => rfl
  | cons p rest ih =>
    cases p with
    | media ct url =>
      simp [List.filter_cons, isMediaPart_media, concatenateTextParts, Part.textOf, ih,
        string_empty_append]
    | text t => simp [List.filter_cons, isMediaPart_text, concatenateTextParts, ih]
    | toolRequest tr =>
      simp [List.filter_cons, isMediaPart_toolRequest, concatenateTextParts, ih]
    | toolResponse t =>
      simp [List.filter_cons, isMediaPart_toolResponse, concatenateTextParts, ih]

theorem encodeModelParts_strip (parts : List Part) :
    encodeModelParts (parts.filter (fun p => !p.isMediaPart)) = encodeModelParts parts := by
  induction parts with
  | nil => rfl
  | cons p rest ih =>
    cases p with
    | media ct url => simp [List.filter_cons, isMediaPart_media, encodeModelParts, ih]
    | text t => simp [List.filter_cons, isMediaPart_text, encodeModelParts, ih]
    | toolRequest tr => simp [List.filter_cons, isMediaPart_toolRequest, encodeModelParts, ih]
    | toolResponse t => simp [List.filter_cons, isMediaPart_toolResponse, encodeModelParts, ih]

theorem encodeToolParts_strip (parts : List Part) :
    encodeToolParts (parts.filter (fun p => !p.isMediaPart)) = encodeToolParts parts := by
  induction parts with
  | nil => rfl
  | cons p rest ih =>
    cases p with
    | media ct url => simp [List.filter_cons, isMediaPart_media, encodeToolParts, ih]
    | text t => simp [List.filter_cons, isMediaPart_text, encodeToolParts, ih]
    | toolRequest tr => simp [List.filter_cons, isMediaPart_toolRequest, encodeToolParts, ih]
    | toolResponse t => simp [List.filter_cons, isMediaPart_toolResponse, encodeToolParts, ih]

theorem encodeMessage_strip (msg : Message) :
    encodeMessage (stripMedia msg) = encodeMessage msg := by
  have hrole : (stripMedia msg).role = msg.role := rfl
  have hcontent : (stripMedia msg).content = msg.content.filter (fun p => !p.isMediaPart) := rfl
  rw [encodeMessage, encodeMessage, hrole, hcontent,
    encodeToolParts_strip, encodeModelParts_strip, concatenateTextParts_strip]

theorem toClientMessages_strip (msgs : List Message) :
    toClientMessages (msgs.map stripMedia) = toClientMessages msgs := by
  induction msgs with
  | nil => rfl
  | cons m rest ih =>
    simp only [List.map_cons, toClientMessages, encodeMessage_strip, ih]

theorem toolRequestsOf_nil_of_text (parts : List Part)
    (h : ∀ p ∈ parts, p.isTextPart = true) : toolRequestsOf parts = [] := by
  induction parts with
  | nil => rfl
  | cons p rest ih =>
    cases p with
    | text t =>
      simp only [toolRequestsOf]
      exact ih (fun p hp => h p (List.mem_cons_of_mem _ hp))
    | toolRequest tr =>
      have := h _ (List.mem_cons_self _ _)
      simp [Part.isTextPart] at this
    | toolResponse t =>
      have := h _ (List.mem_cons_self _ _)
      simp [Part.isTextPart] at this
    | media ct url =>
      have := h _ (List.mem_cons_self _ _)
      simp [Part.isTextPart] at this

theorem toolResponsesOf_nil_of_text (parts : List Part)
    (h : ∀ p ∈ parts, p.isTextPart = true) : toolResponsesOf parts = [] := by
  induction parts with
  | nil => rfl
  | cons p rest ih =>
    cases p with
    | text t =>
      simp only [toolResponsesOf]
      exact ih (fun p hp => h p (List.mem_cons_of_mem _ hp))
    | toolRequest tr =>
      have := h _ (List.mem_cons_self _ _)
      simp [Part.isTextPart] at this
    | toolResponse t =>
      have := h _ (List.mem_cons_self _ _)
      simp [Part.isTextPart] at this
    | media ct url =>
      have := h _ (List.mem_cons_self _ _)
      simp [Part.isTextPart] at this

/-- C10 confirmed: toClientMessages fails exactly when some message
holds a non-marshalable tool-request input (model turn) or tool-response
output (tool turn); a history all of whose parts are text parts always
encodes successfully; and media parts are silently omitted — removing
every media part leaves the encoding unchanged. -/
theorem c10_error_conditions (msgs : List Message) :
    ((∃ e, toClientMessages msgs = .error e) ↔ ∃ msg ∈ msgs, msgBad msg = true) ∧
    ((∀ msg ∈ msgs, ∀ p ∈ msg.content, p.isTextPart = true) →
      ∃ l, toClientMessages msgs = .ok l) ∧
    toClientMessages (msgs.map stripMedia) = toClientMessages msgs := by
  refine ⟨⟨?_, ?_⟩, ?_, toClientMessages_strip msgs⟩
  · rintro ⟨e, he⟩
    by_contra hno
    push_neg at hno
    simp only [ne_eq, Bool.not_eq_true] at hno
    rcases (toClientMessages_ok_iff msgs).mpr hno with ⟨l, hl⟩
    rw [hl] at he
    cases he
  · rintro ⟨msg, hmem, hbad⟩
    cases hres : toClientMessages msgs with
    | error e => exact ⟨e, rfl⟩
    | ok l =>
      have := (toClientMessages_ok_iff msgs).mp ⟨l, hres⟩ msg hmem
      rw [hbad] at this
      cases this
  · intro hall
    apply (toClientMessages_ok_iff msgs).mpr
    intro msg hmem
    have hreq := toolRequestsOf_nil_of_text msg.content (hall msg hmem)
    have hresp := toolResponsesOf_nil_of_text msg.content (hall msg hmem)
    rw [msgBad, hreq, hresp]
    simp [ite_self]

theorem c10_error_conditions_witness :
    ∃ l, toClientMessages
        [⟨RoleUser, [Part.text "Hi"]⟩, ⟨RoleModel, [Part.text "Hello"]⟩] = .ok l :=
  (c10_error_conditions
      [⟨RoleUser, [Part.text "Hi"]⟩, ⟨RoleModel, [Part.text "Hello"]⟩]).2.1
    (by
      intro msg hm p hp
      rcases List.mem_cons.mp hm with rfl | hm'
      · rcases List.mem_cons.mp hp with rfl | hp'
        · rfl
        · cases hp'
      · rcases List.mem_cons.mp hm' with rfl | hm''
        · rcases List.mem_cons.mp hp with rfl | hp'
          · rfl
          · cases hp'
        · cases hm'')

end Workersai
